import Mathlib

/- Shallow embedding of the zipview extension core
   (src/src/ZipContentProvider.ts and src/src/ZipExplorerProvider.ts).

   Paths and text are Lean strings or lists of characters, a JS Map is an
   insertion-ordered association list with unique keys, the JS numbers
   holding byte sizes are naturals, and the compression ratio is compared
   exactly over the rationals in place of IEEE floats.  The file system
   together with JSZip.loadAsync is an explicit function from archive
   paths to parse results; a rejected promise or thrown Error is an
   Except.error carrying the message. -/

namespace ZipView

/-- Lookup in a JS Map of strings, modelled as an association list. -/
def mapGet {α : Type} : List (String × α) → String → Option α
  | [], _ => none
  | (k, v) :: rest, key => if k = key then some v else mapGet rest key

/-- Map.set: updates the entry in place when the key is present, appends
    a new entry at the end (insertion order) when it is absent. -/
def mapSet {α : Type} : List (String × α) → String → α → List (String × α)
  | [], key, value => [(key, value)]
  | (k, v) :: rest, key, value =>
    if k = key then (k, value) :: rest else (k, v) :: mapSet rest key value

/-- Map.delete: removes the entry with the given key, if any. -/
def mapDelete {α : Type} : List (String × α) → String → List (String × α)
  | [], _ => []
  | (k, v) :: rest, key => if k = key then rest else (k, v) :: mapDelete rest key

/-- The keys of a modelled Map, in insertion order. -/
def mapKeys {α : Type} (m : List (String × α)) : List String := m.map Prod.fst

/-- internalPath.replace of every backslash by a forward slash
    (ZipContentProvider.ts line 43). -/
def normalizeSeps (l : List Char) : List Char :=
  l.map fun c => if c = '\\' then '/' else c

/-- normalized.replace removing the leading run of slashes (line 46). -/
def stripLeadingSlashes (l : List Char) : List Char :=
  l.dropWhile fun c => c = '/'

/-- normalized.split on the slash character (line 49), with the JS
    String.split semantics for a one-character separator: the empty
    input yields one empty segment, separators at the ends yield empty
    segments. -/
def splitOnSlash : List Char → List (List Char)
  | [] => [[]]
  | c :: rest =>
    if c = '/' then [] :: splitOnSlash rest
    else
      match splitOnSlash rest with
      | [] => [[c]]
      | s :: ss => (c :: s) :: ss

/-- The regex test for a Windows drive-letter segment, one ASCII letter
    followed by a colon (line 62). -/
def isDriveLetter : List Char → Bool
  | [c, d] => c.isAlpha && d = ':'
  | _ => false

/-- The loop over path segments (lines 52-66): empty and dot segments
    are skipped, a dot-dot or drive-letter segment rejects the whole
    path, every other segment is kept. -/
def filterSegs : List (List Char) → Option (List (List Char))
  | [] => some []
  | seg :: rest =>
    if seg = [] ∨ seg = ['.'] then filterSegs rest
    else if seg = ['.', '.'] then none
    else if isDriveLetter seg then none
    else (filterSegs rest).map fun segs => seg :: segs

/-- The joining of safeParts with slashes (line 72). -/
def joinSegs : List (List Char) → List Char
  | [] => []
  | [s] => s
  | s :: rest => s ++ '/' :: joinSegs rest

/-- sanitizeZipPath (ZipContentProvider.ts lines 37-73). -/
def sanitizeZipPath (internalPath : String) : Option String :=
  if internalPath = "" then none
  else
    match filterSegs (splitOnSlash (stripLeadingSlashes (normalizeSeps internalPath.data))) with
    | none => none
    | some [] => none
    | some segs => some (String.mk (joinSegs segs))

/-- isZipBomb (lines 78-85): sizes as naturals, the configured maximum
    ratio as a rational, the division exact. -/
def isZipBomb (compressedSize uncompressedSize : ℕ) (maxCompressionRatio : ℚ) : Bool :=
  if compressedSize = 0 then decide (uncompressedSize > 0)
  else decide ((uncompressedSize : ℚ) / (compressedSize : ℚ) > maxCompressionRatio)

/-- One entry of the escapeHtml character table (lines 90-99). -/
def escapeChar (c : Char) : List Char :=
  if c = '&' then "&amp;".data
  else if c = '<' then "&lt;".data
  else if c = '>' then "&gt;".data
  else if c = Char.ofNat 34 then "&quot;".data
  else if c = Char.ofNat 39 then "&#39;".data
  else [c]

/-- escapeHtml (lines 90-99). -/
def escapeHtml (s : String) : String :=
  String.mk (s.data.map escapeChar).flatten

/-- The two cache fields of ZipContentProvider (lines 127-128). -/
structure CacheState where
  contentCache : List (String × String)
  cacheOrder : List String
deriving DecidableEq

/-- The caches as initialized at construction. -/
def initialCacheState : CacheState := ⟨[], []⟩

/-- The while loop of addToCache (lines 140-145): shift the oldest key
    and delete it from the map while the order list is at capacity.  The
    JS guard testing the shifted key skips the map delete when that key
    is the empty string (falsy).  With an empty order list and
    maxCacheSize = 0 the JS loop would spin forever without observable
    effect; the model returns the state unchanged there. -/
def evictWhileFull (maxCacheSize : ℕ) :
    List String → List (String × String) → List String × List (String × String)
  | [], m => ([], m)
  | k :: rest, m =>
    if (k :: rest).length ≥ maxCacheSize then
      evictWhileFull maxCacheSize rest (if k = "" then m else mapDelete m k)
    else (k :: rest, m)

/-- addToCache (lines 130-150), with getConfig().maxCacheSize passed as
    an argument since configuration is read per call. -/
def addToCache (maxCacheSize : ℕ) (st : CacheState) (key value : String) : CacheState :=
  let order1 := if st.cacheOrder.contains key then st.cacheOrder.erase key else st.cacheOrder
  let p := evictWhileFull maxCacheSize order1 st.contentCache
  { contentCache := mapSet p.2 key value, cacheOrder := p.1 ++ [key] }

/-- getFromCache (lines 152-163): returns the hit, promoting the key to
    most recently used, together with the updated state. -/
def getFromCache (st : CacheState) (key : String) : Option String × CacheState :=
  match mapGet st.contentCache key with
  | none => (none, st)
  | some v =>
    let order := if st.cacheOrder.contains key
      then st.cacheOrder.erase key ++ [key] else st.cacheOrder
    (some v, { st with cacheOrder := order })

/-- invalidate (lines 224-232); firing the change event is external. -/
def invalidate (st : CacheState) (key : String) : CacheState :=
  { contentCache := mapDelete st.contentCache key,
    cacheOrder := if st.cacheOrder.contains key
      then st.cacheOrder.erase key else st.cacheOrder }

/-- dispose (lines 234-238) clears both cache fields. -/
def disposeState : CacheState := ⟨[], []⟩

/-- A file entry of a parsed archive as the content provider sees it:
    the declared sizes read from the JSZip internal data (with the
    zero defaults applied) and the payload that file.async would
    produce, an Except carrying the rejection message on a corrupt
    entry.  The payload is modelled opaquely as a string for both the
    text and the buffer decodings. -/
structure ZipFileEntry where
  path : String
  uncompressedSize : ℕ
  compressedSize : ℕ
  content : Except String String

/-- zip.file lookup by exact name match (lines 191 and 263). -/
def findFile (entries : List ZipFileEntry) (p : String) : Option ZipFileEntry :=
  entries.find? fun e => e.path == p

/-- Math.round of a byte count divided by 1024 twice, computed exactly:
    round half up on a non-negative value. -/
def mbRound (n : ℕ) : ℕ := (n + 524288) / 1048576

/-- The message of the error thrown at line 277. -/
def tooLargeExtractMsg (u maxFileSize : ℕ) : String :=
  "File too large (" ++ toString (mbRound u) ++ "MB exceeds " ++
    toString (mbRound maxFileSize) ++ "MB limit)."

/-- The message of the error thrown at line 282. -/
def suspiciousMsg : String :=
  "Suspicious compression ratio detected. File may be a zip bomb."

/-- extractFileFromZip (lines 254-286).  readZip bundles
    fs.promises.readFile with JSZip.loadAsync; configuration values are
    passed as arguments. -/
def extractFileFromZip (readZip : String → Except String (List ZipFileEntry))
    (zipPath internalPath : String) (maxFileSize : ℕ) (maxCompressionRatio : ℚ) :
    Except String String :=
  match sanitizeZipPath internalPath with
  | none => .error "Invalid file path."
  | some safePath =>
    match readZip zipPath with
    | .error e => .error e
    | .ok entries =>
      match findFile entries safePath with
      | none => .error ("File \"" ++ escapeHtml safePath ++ "\" not found in archive.")
      | some file =>
        if file.uncompressedSize > maxFileSize then
          .error (tooLargeExtractMsg file.uncompressedSize maxFileSize)
        else if isZipBomb file.compressedSize file.uncompressedSize maxCompressionRatio then
          .error suspiciousMsg
        else file.content

/-- The string returned at line 206. -/
def tooLargePreviewMsg (u maxFileSize : ℕ) : String :=
  "Error: File too large to preview (" ++ toString (mbRound u) ++ "MB exceeds " ++
    toString (mbRound maxFileSize) ++ "MB limit)."

/-- The numeric value of one hex digit, as the URI decoding algorithm
    reads it; none on a non-hex character. -/
def hexVal (c : Char) : Option ℕ :=
  if '0' ≤ c ∧ c ≤ '9' then some (c.toNat - 48)
  else if 'A' ≤ c ∧ c ≤ 'F' then some (c.toNat - 55)
  else if 'a' ≤ c ∧ c ≤ 'f' then some (c.toNat - 87)
  else none

/-- Phase one of the ECMA-262 Decode algorithm: tokenize the input into
    literal characters and percent-escaped bytes; none models the
    URIError thrown when a percent sign is not followed by two hex
    digits. -/
def percentTokens : List Char → Option (List (Char ⊕ ℕ))
  | [] => some []
  | '%' :: c1 :: c2 :: rest =>
    match hexVal c1, hexVal c2 with
    | some h, some l => (percentTokens rest).map fun ts => Sum.inr (16 * h + l) :: ts
    | _, _ => none
  | '%' :: _ => none
  | c :: rest => (percentTokens rest).map fun ts => Sum.inl c :: ts

/-- A UTF-8 continuation byte. -/
def utf8Cont (b : ℕ) : Prop := 128 ≤ b ∧ b ≤ 191

instance (b : ℕ) : Decidable (utf8Cont b) := by
  unfold utf8Cont; infer_instance

/-- Phase two of the ECMA-262 Decode algorithm: escaped bytes must form
    valid UTF-8 (no stray or overlong sequences, no surrogates, at most
    U+10FFFF) and continuation bytes must themselves come from escapes;
    none models the thrown URIError.  JS strings are UTF-16, so the one
    disclosed idealization is that a decoded supplementary-plane code
    point becomes one Char rather than a surrogate pair. -/
def utf8Assemble : List (Char ⊕ ℕ) → Option (List Char)
  | [] => some []
  | .inl c :: rest => (utf8Assemble rest).map fun cs => c :: cs
  | .inr b :: rest =>
    if b < 128 then (utf8Assemble rest).map fun cs => Char.ofNat b :: cs
    else if 194 ≤ b ∧ b ≤ 223 then
      match rest with
      | .inr b2 :: rest2 =>
        let w := (b - 192) * 64 + (b2 - 128)
        if utf8Cont b2 ∧ 128 ≤ w ∧ w ≤ 2047 then
          (utf8Assemble rest2).map fun cs => Char.ofNat w :: cs
        else none
      | _ => none
    else if 224 ≤ b ∧ b ≤ 239 then
      match rest with
      | .inr b2 :: .inr b3 :: rest2 =>
        let w := (b - 224) * 4096 + (b2 - 128) * 64 + (b3 - 128)
        if utf8Cont b2 ∧ utf8Cont b3 ∧ 2048 ≤ w ∧ w ≤ 65535 ∧
            ¬(55296 ≤ w ∧ w ≤ 57343) then
          (utf8Assemble rest2).map fun cs => Char.ofNat w :: cs
        else none
      | _ => none
    else if 240 ≤ b ∧ b ≤ 244 then
      match rest with
      | .inr b2 :: .inr b3 :: .inr b4 :: rest2 =>
        let w := (b - 240) * 262144 + (b2 - 128) * 4096 + (b3 - 128) * 64 + (b4 - 128)
        if utf8Cont b2 ∧ utf8Cont b3 ∧ utf8Cont b4 ∧ 65536 ≤ w ∧ w ≤ 1114111 then
          (utf8Assemble rest2).map fun cs => Char.ofNat w :: cs
        else none
      | _ => none
    else none

/-- decodeURIComponent, the ECMAScript host built-in called at
    ZipContentProvider.ts line 176, modelled after the ECMA-262 Decode
    algorithm with an empty reserved set; none models the thrown
    URIError. -/
def decodeURIComponent (s : String) : Option String :=
  match percentTokens s.data with
  | none => none
  | some ts => (utf8Assemble ts).map String.mk

/-- The message of the URIError escaping the provider when the decode
    at line 176 throws; the wording is engine-specific (V8 shown). -/
def uriErrorMsg : String := "URIError: URI malformed"

/-- The parts of a zipview URI that provideTextDocumentContent reads:
    uri.path, the zipPath query parameter value as URLSearchParams.get
    returns it with the or-empty default applied (still to be
    percent-decoded by decodeURIComponent), and uri.toString() used as
    the cache key. -/
structure ZipUri where
  path : String
  zipPathParam : String
  key : String

/-- provideTextDocumentContent (lines 165-222), returning the outcome of
    the promise together with the updated cache state: Except.ok is a
    resolved string, Except.error the rejection caused by the unguarded
    decodeURIComponent at line 176, which sits outside the try/catch. -/
def provideTextDocumentContent (maxFileSize : ℕ) (maxCompressionRatio : ℚ)
    (maxCacheSize : ℕ) (readZip : String → Except String (List ZipFileEntry))
    (st : CacheState) (uri : ZipUri) : Except String String × CacheState :=
  match getFromCache st uri.key with
  | (some cached, st1) => (.ok cached, st1)
  | (none, st1) =>
    let rawInternalPath := if uri.path.startsWith "/" then uri.path.drop 1 else uri.path
    match decodeURIComponent uri.zipPathParam with
    | none => (.error uriErrorMsg, st1)
    | some zipPath =>
      if zipPath = "" then (.ok "Error: Missing zip file path in URI.", st1)
      else
        match sanitizeZipPath rawInternalPath with
        | none => (.ok "Error: Invalid file path.", st1)
        | some internalPath =>
          match readZip zipPath with
          | .error e => (.ok ("Error reading file: " ++ escapeHtml e), st1)
          | .ok entries =>
            match findFile entries internalPath with
            | none =>
              (.ok ("Error: File \"" ++ escapeHtml internalPath ++ "\" not found in archive."),
                st1)
            | some file =>
              if file.uncompressedSize > maxFileSize then
                (.ok (tooLargePreviewMsg file.uncompressedSize maxFileSize), st1)
              else if isZipBomb file.compressedSize file.uncompressedSize
                  maxCompressionRatio then
                (.ok "Error: Suspicious compression ratio detected. File may be a zip bomb.",
                  st1)
              else
                match file.content with
                | .error e => (.ok ("Error reading file: " ++ escapeHtml e), st1)
                | .ok content => (.ok content, addToCache maxCacheSize st1 uri.key content)

/-- One JSZip entry as ZipExplorerProvider.getEntriesAtPath sees it: the
    relativePath handed to the forEach callback and the dir flag. -/
structure ZEntry where
  path : List Char
  dir : Bool
deriving DecidableEq

/-- The ZipTreeItem type discriminator. -/
inductive ZipItemType
  | zipFile
  | folder
  | file
deriving DecidableEq

/-- A ZipTreeItem as constructed by getEntriesAtPath: label, type and
    archive-relative path.  The zipUri argument, constant across one
    call, is omitted. -/
structure ZipTreeItem where
  label : List Char
  type : ZipItemType
  relativePath : List Char
deriving DecidableEq

/-- The body of the zip.forEach callback (ZipExplorerProvider.ts lines
    198-245), folded over the entry list in storage order; the
    accumulator carries the pushed items and the seenFolders set. -/
def childStep (normalizedBase : List Char) (acc : List ZipTreeItem × List (List Char))
    (e : ZEntry) : List ZipTreeItem × List (List Char) :=
  if e.path = normalizedBase then acc
  else if normalizedBase.isPrefixOf e.path then
    let relativeFromBase := e.path.drop normalizedBase.length
    if relativeFromBase = [] then acc
    else
      match (splitOnSlash relativeFromBase).filter (fun p => !p.isEmpty) with
      | [] => acc
      | [name] =>
        if e.dir || e.path.getLast? == some '/' then
          if acc.2.contains name then acc
          else (acc.1 ++ [⟨name, .folder, normalizedBase ++ name⟩], name :: acc.2)
        else (acc.1 ++ [⟨name, .file, e.path⟩], acc.2)
      | folderName :: _ :: _ =>
        if acc.2.contains folderName then acc
        else (acc.1 ++ [⟨folderName, .folder, normalizedBase ++ folderName⟩], folderName :: acc.2)
  else acc

/-- Code-point comparison of two labels; localeCompare coincides with it
    on the plain ASCII names appearing in the verified listings. -/
def charListCmp : List Char → List Char → Ordering
  | [], [] => .eq
  | [], _ :: _ => .lt
  | _ :: _, [] => .gt
  | a :: as, b :: bs =>
    if a < b then .lt else if b < a then .gt else charListCmp as bs

/-- The sort comparator (lines 248-256): folders before files, otherwise
    the label comparison. -/
def itemCmp (a b : ZipTreeItem) : Ordering :=
  if a.type = .folder ∧ b.type ≠ .folder then .lt
  else if a.type ≠ .folder ∧ b.type = .folder then .gt
  else charListCmp a.label b.label

/-- Stable insertion for the sort below: an element coming from earlier
    in the input goes before every later element it does not compare
    greater than, as Array.prototype.sort guarantees. -/
def insertItem (a : ZipTreeItem) : List ZipTreeItem → List ZipTreeItem
  | [] => [a]
  | b :: rest => if itemCmp a b = .gt then b :: insertItem a rest else a :: b :: rest

/-- Stable sort of the pushed entries by the comparator. -/
def sortItems : List ZipTreeItem → List ZipTreeItem
  | [] => []
  | a :: rest => insertItem a (sortItems rest)

/-- getEntriesAtPath (ZipExplorerProvider.ts lines 191-259). -/
def getEntriesAtPath (entries : List ZEntry) (basePath : List Char) : List ZipTreeItem :=
  let normalizedBase :=
    if basePath = [] then []
    else if basePath.getLast? == some '/' then basePath else basePath ++ ['/']
  sortItems (entries.foldl (childStep normalizedBase) ([], [])).1

/-- ZipExplorerProvider.loadZip (lines 145-189): zipContentsCache keyed
    by fsPath; a hit returns the cached parse without touching the file
    system, a miss reads and parses the archive, stores the result and
    returns it; a read or parse failure leaves the cache unchanged and
    yields null. -/
def loadZip (readZip : String → Except String (List ZEntry))
    (cache : List (String × List ZEntry)) (fsPath : String) :
    Option (List ZEntry) × List (String × List ZEntry) :=
  match mapGet cache fsPath with
  | some zip => (some zip, cache)
  | none =>
    match readZip fsPath with
    | .ok zip => (some zip, mapSet cache fsPath zip)
    | .error _ => (none, cache)

/-- ZipExplorerProvider.invalidateCache (lines 96-98). -/
def invalidateCache (cache : List (String × List ZEntry)) (fsPath : String) :
    List (String × List ZEntry) :=
  mapDelete cache fsPath

/-- The cache consistency invariant on the content provider state: the
    access-order list has no duplicate keys and holds exactly the keys
    of the content map.  The clause that the map itself holds each key
    at most once is automatic for a JS Map and is an artifact of the
    association-list embedding. -/
def CacheInv (st : CacheState) : Prop :=
  st.cacheOrder.Nodup ∧ (mapKeys st.contentCache).Nodup ∧
    (∀ k ∈ st.cacheOrder, k ∈ mapKeys st.contentCache) ∧
    (∀ k ∈ mapKeys st.contentCache, k ∈ st.cacheOrder)

instance (st : CacheState) : Decidable (CacheInv st) := by
  unfold CacheInv; infer_instance

/-- The invariant strengthened by the absence of the empty-string key,
    which every uri.toString() cache key satisfies. -/
def StrongInv (st : CacheState) : Prop :=
  CacheInv st ∧ "" ∉ st.cacheOrder

instance (st : CacheState) : Decidable (StrongInv st) := by
  unfold StrongInv; infer_instance

/-- The concrete entry list of the virtual-tree listing example. -/
def exampleEntries : List ZEntry :=
  [⟨"a/".data, true⟩, ⟨"a/b.txt".data, false⟩, ⟨"a/c/d.txt".data, false⟩,
    ⟨"e.txt".data, false⟩]

/-- A sample oversized entry: 2 MB declared uncompressed size. -/
def sampleBigEntry : ZipFileEntry := ⟨"f.txt", 2097152, 1, .ok "X"⟩

/-- A file system holding one archive with the oversized entry. -/
def sampleBigReadZip : String → Except String (List ZipFileEntry) :=
  fun _ => .ok [sampleBigEntry]

/-- A sample parsed archive for the explorer cache. -/
def sampleZip : List ZEntry := [⟨"f.txt".data, false⟩]

/-- A file system holding the sample archive at every path. -/
def sampleReadZip : String → Except String (List ZEntry) := fun _ => .ok sampleZip

/-- The LRU scenario, step by step, at capacity 2: puts of A, B and C. -/
def lruStep1 : CacheState := addToCache 2 initialCacheState "A" "a"

/-- Second put of the LRU scenario. -/
def lruStep2 : CacheState := addToCache 2 lruStep1 "B" "b"

/-- Third put of the LRU scenario; evicts the oldest key A. -/
def lruStep3 : CacheState := addToCache 2 lruStep2 "C" "c"

/-- The read of B, promoting it to most recently used. -/
def lruStep4 : CacheState := (getFromCache lruStep3 "B").2

/-- The put of D; evicts C rather than the promoted B. -/
def lruStep5 : CacheState := addToCache 2 lruStep4 "D" "d"

/-- A full capacity-2 cache state with access order B then C. -/
def lruFullState : CacheState := ⟨[("B", "b"), ("C", "c")], ["B", "C"]⟩

/- Helper lemmas. -/

theorem splitOnSlash_ne_nil (l : List Char) : splitOnSlash l ≠ [] := by
  induction l with
  | nil => simp [splitOnSlash]
  | cons c rest ih =>
    simp only [splitOnSlash]
    split
    · simp
    · split <;> simp

theorem dotdot_mem_strip {l : List Char}
    (h : ['.', '.'] ∈ splitOnSlash l) :
    ['.', '.'] ∈ splitOnSlash (stripLeadingSlashes l) := by
  induction l with
  | nil => simp [splitOnSlash] at h
  | cons c rest ih =>
    by_cases hc : c = '/'
    · subst hc
      have h2 : ['.', '.'] ∈ splitOnSlash rest := by
        simpa [splitOnSlash] using h
      simpa [stripLeadingSlashes, List.dropWhile_cons] using ih h2
    · simpa [stripLeadingSlashes, List.dropWhile_cons, hc] using h

theorem filterSegs_of_dotdot : ∀ {segs : List (List Char)},
    ['.', '.'] ∈ segs → filterSegs segs = none := by
  intro segs h
  induction segs with
  | nil => cases h
  | cons seg rest ih =>
    rcases List.mem_cons.mp h with h1 | h1
    · simp only [filterSegs]
      rw [if_neg (by rw [← h1]; simp), if_pos h1.symm]
    · simp only [filterSegs]
      split_ifs <;> simp [ih h1]

theorem splitOnSlash_no_slash {l : List Char} (h : '/' ∉ l) : splitOnSlash l = [l] := by
  induction l with
  | nil => rfl
  | cons c rest ih =>
    have hc : c ≠ '/' := fun hh => h (hh ▸ List.mem_cons_self ..)
    have hr : '/' ∉ rest := fun hm => h (List.mem_cons_of_mem _ hm)
    simp [splitOnSlash, hc, ih hr]

theorem splitOnSlash_append {a : List Char} (ha : '/' ∉ a) (l : List Char) {s : List Char}
    {ss : List (List Char)} (h : splitOnSlash l = s :: ss) :
    splitOnSlash (a ++ l) = (a ++ s) :: ss := by
  induction a with
  | nil => simpa using h
  | cons c a ih =>
    have hc : c ≠ '/' := fun hh => ha (hh ▸ List.mem_cons_self ..)
    have ha' : '/' ∉ a := fun hm => ha (List.mem_cons_of_mem _ hm)
    simp [splitOnSlash, hc, ih ha']

theorem splitOnSlash_joinSegs : ∀ {segs : List (List Char)}, segs ≠ [] →
    (∀ t ∈ segs, '/' ∉ t) → splitOnSlash (joinSegs segs) = segs := by
  intro segs
  induction segs with
  | nil => simp
  | cons s rest ih =>
    intro _ hns
    cases rest with
    | nil => simpa [joinSegs] using splitOnSlash_no_slash (hns s (by simp))
    | cons s2 rest2 =>
      have ih2 : splitOnSlash (joinSegs (s2 :: rest2)) = s2 :: rest2 :=
        ih (by simp) fun t ht => hns t (List.mem_cons_of_mem _ ht)
      have hsl : splitOnSlash ('/' :: joinSegs (s2 :: rest2)) = [] :: s2 :: rest2 := by
        simp [splitOnSlash, ih2]
      rw [show joinSegs (s :: s2 :: rest2) = s ++ '/' :: joinSegs (s2 :: rest2) from rfl]
      rw [splitOnSlash_append (hns s (by simp)) _ hsl]
      simp

theorem mem_of_mem_splitOnSlash : ∀ {l s : List Char}, s ∈ splitOnSlash l →
    ∀ {c : Char}, c ∈ s → c ∈ l := by
  intro l
  induction l with
  | nil =>
    intro s hs c hc
    simp [splitOnSlash] at hs
    subst hs; cases hc
  | cons a rest ih =>
    intro s hs c hc
    by_cases hA : a = '/'
    · subst hA
      simp only [splitOnSlash, if_pos rfl] at hs
      rcases List.mem_cons.mp hs with rfl | hs
      · cases hc
      · exact List.mem_cons_of_mem _ (ih hs hc)
    · obtain ⟨s0, ss, hrest⟩ := List.exists_cons_of_ne_nil (splitOnSlash_ne_nil rest)
      have heq : splitOnSlash (a :: rest) = (a :: s0) :: ss := by
        simp [splitOnSlash, hA, hrest]
      rw [heq] at hs
      rcases List.mem_cons.mp hs with rfl | hs
      · rcases List.mem_cons.mp hc with rfl | hc2
        · exact List.mem_cons_self ..
        · exact List.mem_cons_of_mem _ (ih (by rw [hrest]; exact List.mem_cons_self ..) hc2)
      · exact List.mem_cons_of_mem _ (ih (by rw [hrest]; exact List.mem_cons_of_mem _ hs) hc)

theorem no_slash_of_mem_splitOnSlash : ∀ {l s : List Char}, s ∈ splitOnSlash l → '/' ∉ s := by
  intro l
  induction l with
  | nil =>
    intro s hs
    simp [splitOnSlash] at hs
    subst hs; simp
  | cons a rest ih =>
    intro s hs
    by_cases hA : a = '/'
    · subst hA
      simp only [splitOnSlash, if_pos rfl] at hs
      rcases List.mem_cons.mp hs with rfl | hs
      · simp
      · exact ih hs
    · obtain ⟨s0, ss, hrest⟩ := List.exists_cons_of_ne_nil (splitOnSlash_ne_nil rest)
      have heq : splitOnSlash (a :: rest) = (a :: s0) :: ss := by
        simp [splitOnSlash, hA, hrest]
      rw [heq] at hs
      rcases List.mem_cons.mp hs with rfl | hs
      · intro hsl
        rcases List.mem_cons.mp hsl with h1 | h1
        · exact hA h1.symm
        · exact ih (hrest ▸ List.mem_cons_self ..) h1
      · exact ih (hrest ▸ List.mem_cons_of_mem _ hs)

theorem filterSegs_sound : ∀ {xs ys : List (List Char)}, filterSegs xs = some ys →
    ∀ t ∈ ys, t ∈ xs ∧ t ≠ [] ∧ t ≠ ['.'] ∧ t ≠ ['.', '.'] ∧ isDriveLetter t = false := by
  intro xs
  induction xs with
  | nil =>
    intro ys h t ht
    simp [filterSegs] at h
    subst h; cases ht
  | cons seg rest ih =>
    intro ys h t ht
    simp only [filterSegs] at h
    split_ifs at h with h1 h2 h3
    · have := ih h t ht
      exact ⟨List.mem_cons_of_mem _ this.1, this.2⟩
    · cases hf : filterSegs rest with
      | none => rw [hf] at h; cases h
      | some zs =>
        rw [hf] at h
        simp only [Option.map_some'] at h
        injection h with h
        subst h
        rcases List.mem_cons.mp ht with rfl | ht2
        · refine ⟨List.mem_cons_self .., fun hh => h1 (Or.inl hh),
            fun hh => h1 (Or.inr hh), h2, by simpa using h3⟩
        · have := ih hf t ht2
          exact ⟨List.mem_cons_of_mem _ this.1, this.2⟩

theorem filterSegs_fixed : ∀ {ys : List (List Char)},
    (∀ t ∈ ys, t ≠ [] ∧ t ≠ ['.'] ∧ t ≠ ['.', '.'] ∧ isDriveLetter t = false) →
    filterSegs ys = some ys := by
  intro ys
  induction ys with
  | nil => intro; rfl
  | cons seg rest ih =>
    intro h
    obtain ⟨h1, h2, h3, h4⟩ := h seg (List.mem_cons_self ..)
    have hrest := ih fun t ht => h t (List.mem_cons_of_mem _ ht)
    simp only [filterSegs]
    rw [if_neg (by tauto), if_neg h3, if_neg (by simp [h4]), hrest]
    rfl

theorem joinSegs_cons_append (s : List Char) (rest : List (List Char)) :
    ∃ t, joinSegs (s :: rest) = s ++ t := by
  cases rest with
  | nil => exact ⟨[], by simp [joinSegs]⟩
  | cons s2 r2 => exact ⟨'/' :: joinSegs (s2 :: r2), rfl⟩

theorem mem_joinSegs : ∀ {segs : List (List Char)} {c : Char}, c ∈ joinSegs segs →
    c = '/' ∨ ∃ t ∈ segs, c ∈ t := by
  intro segs
  induction segs with
  | nil => intro c hc; cases hc
  | cons s rest ih =>
    cases rest with
    | nil =>
      intro c hc
      right
      exact ⟨s, by simp, by simpa [joinSegs] using hc⟩
    | cons s2 r2 =>
      intro c hc
      rw [show joinSegs (s :: s2 :: r2) = s ++ '/' :: joinSegs (s2 :: r2) from rfl] at hc
      rcases List.mem_append.mp hc with h | h
      · right; exact ⟨s, List.mem_cons_self .., h⟩
      · rcases List.mem_cons.mp h with rfl | h
        · left; rfl
        · rcases ih h with h | ⟨t, ht, hc2⟩
          · left; exact h
          · right; exact ⟨t, List.mem_cons_of_mem _ ht, hc2⟩

theorem backslash_not_mem_normalizeSeps (l : List Char) : '\\' ∉ normalizeSeps l := by
  intro h
  simp only [normalizeSeps, List.mem_map] at h
  obtain ⟨c, _, hc⟩ := h
  split_ifs at hc with h1
  · cases hc
  · exact h1 hc

theorem normalizeSeps_eq_self {l : List Char} (h : '\\' ∉ l) : normalizeSeps l = l := by
  induction l with
  | nil => rfl
  | cons c rest ih =>
    have hc : c ≠ '\\' := fun hh => h (hh ▸ List.mem_cons_self ..)
    have hr : '\\' ∉ rest := fun hm => h (List.mem_cons_of_mem _ hm)
    show (if c = '\\' then '/' else c) :: normalizeSeps rest = c :: rest
    rw [if_neg hc, ih hr]

theorem mem_of_mem_stripLeadingSlashes {l : List Char} {c : Char}
    (h : c ∈ stripLeadingSlashes l) : c ∈ l :=
  (List.dropWhile_sublist _).mem h

theorem mapGet_mapSet {α : Type} (m : List (String × α)) (k : String) (v : α) (k' : String) :
    mapGet (mapSet m k v) k' = if k = k' then some v else mapGet m k' := by
  induction m with
  | nil => simp [mapSet, mapGet]
  | cons kv rest ih =>
    obtain ⟨a, b⟩ := kv
    by_cases h1 : a = k
    · subst h1
      by_cases h2 : a = k' <;> simp [mapSet, mapGet, h2]
    · by_cases h2 : a = k'
      · subst h2
        simp [mapSet, h1, mapGet, Ne.symm h1]
      · simp [mapSet, h1, h2, mapGet, ih]

theorem tooLargeExtractMsg_ne (u m : ℕ) : tooLargeExtractMsg u m ≠ suspiciousMsg := by
  intro h
  have h1 : (tooLargeExtractMsg u m).data.head? = some 'F' := rfl
  rw [h] at h1
  simp [suspiciousMsg] at h1

theorem tooLargePreviewMsg_ne (u m : ℕ) : tooLargePreviewMsg u m ≠
    "Error: Suspicious compression ratio detected. File may be a zip bomb." := by
  intro h
  have h1 : (tooLargePreviewMsg u m).data.get? 7 = some 'F' := rfl
  rw [h] at h1
  simp at h1

theorem evictWhileFull_of_lt {max : ℕ} {l : List String} {m : List (String × String)}
    (h : l.length < max) : evictWhileFull max l m = (l, m) := by
  cases l with
  | nil => rfl
  | cons k rest =>
    have h' : rest.length + 1 < max := by simpa using h
    simp only [evictWhileFull, List.length_cons]
    rw [if_neg (by omega)]

theorem getFromCache_fst (st : CacheState) (k : String) :
    (getFromCache st k).1 = mapGet st.contentCache k := by
  unfold getFromCache
  cases mapGet st.contentCache k <;> rfl

theorem getFromCache_snd_contentCache (st : CacheState) (k : String) :
    ((getFromCache st k).2).contentCache = st.contentCache := by
  unfold getFromCache
  cases mapGet st.contentCache k <;> rfl

theorem getFromCache_none_eq {st st1 : CacheState} {k : String}
    (h : getFromCache st k = (none, st1)) : st1 = st := by
  unfold getFromCache at h
  cases hm : mapGet st.contentCache k <;> rw [hm] at h
  · injection h with _ h; exact h.symm
  · injection h with h; cases h

theorem provide_outcomes (maxFileSize maxCacheSize : ℕ) (maxCompressionRatio : ℚ)
    (readZip : String → Except String (List ZipFileEntry)) (st : CacheState) (uri : ZipUri)
    (q : Except String String × CacheState)
    (hq : provideTextDocumentContent maxFileSize maxCompressionRatio maxCacheSize
      readZip st uri = q) :
    (∃ r, q.1 = .ok r ∧ mapGet st.contentCache uri.key = some r ∧
      q.2.contentCache = st.contentCache) ∨
    (q.1 = .error uriErrorMsg ∧ decodeURIComponent uri.zipPathParam = none ∧ q.2 = st) ∨
    (∃ zp entries f r, decodeURIComponent uri.zipPathParam = some zp ∧
      readZip zp = .ok entries ∧ f ∈ entries ∧ f.content = .ok r ∧ q.1 = .ok r ∧
      q.2 = addToCache maxCacheSize st uri.key r) ∨
    (q.1 = .ok "Error: Missing zip file path in URI." ∧ q.2 = st) ∨
    (q.1 = .ok "Error: Invalid file path." ∧ q.2 = st) ∨
    ((∃ p, q.1 = .ok ("Error: File \"" ++ p ++ "\" not found in archive.")) ∧ q.2 = st) ∨
    ((∃ u m, q.1 = .ok (tooLargePreviewMsg u m)) ∧ q.2 = st) ∨
    (q.1 = .ok "Error: Suspicious compression ratio detected. File may be a zip bomb." ∧
      q.2 = st) ∨
    ((∃ m, q.1 = .ok ("Error reading file: " ++ m)) ∧ q.2 = st) := by
  subst hq
  rcases hoc : getFromCache st uri.key with ⟨o, st1⟩
  cases o with
  | some cached =>
    have hrun : provideTextDocumentContent maxFileSize maxCompressionRatio maxCacheSize
        readZip st uri = (.ok cached, st1) := by
      unfold provideTextDocumentContent
      rw [hoc]
    rw [hrun]
    left
    have h1 := getFromCache_fst st uri.key
    have h2 := getFromCache_snd_contentCache st uri.key
    rw [hoc] at h1 h2
    exact ⟨cached, rfl, h1.symm, h2⟩
  | none =>
    have hst : st1 = st := getFromCache_none_eq hoc
    cases hdec : decodeURIComponent uri.zipPathParam with
    | none =>
      have hrun : provideTextDocumentContent maxFileSize maxCompressionRatio maxCacheSize
          readZip st uri = (.error uriErrorMsg, st1) := by
        unfold provideTextDocumentContent
        rw [hoc]
        simp [hdec]
      rw [hrun]
      right; left
      exact ⟨rfl, rfl, hst⟩
    | some zipPath =>
      by_cases hzp : zipPath = ""
      · have hrun : provideTextDocumentContent maxFileSize maxCompressionRatio maxCacheSize
            readZip st uri = (.ok "Error: Missing zip file path in URI.", st1) := by
          unfold provideTextDocumentContent
          rw [hoc]
          simp [hdec, hzp]
        rw [hrun]
        right; right; right; left
        exact ⟨rfl, hst⟩
      · cases hsan : sanitizeZipPath
            (if uri.path.startsWith "/" then uri.path.drop 1 else uri.path) with
        | none =>
          have hrun : provideTextDocumentContent maxFileSize maxCompressionRatio
              maxCacheSize readZip st uri = (.ok "Error: Invalid file path.", st1) := by
            unfold provideTextDocumentContent
            rw [hoc]
            simp [hdec, hzp, hsan]
          rw [hrun]
          right; right; right; right; left
          exact ⟨rfl, hst⟩
        | some internalPath =>
          cases hrz : readZip zipPath with
          | error e =>
            have hrun : provideTextDocumentContent maxFileSize maxCompressionRatio
                maxCacheSize readZip st uri =
                (.ok ("Error reading file: " ++ escapeHtml e), st1) := by
              unfold provideTextDocumentContent
              rw [hoc]
              simp [hdec, hzp, hsan, hrz]
            rw [hrun]
            right; right; right; right; right; right; right; right
            exact ⟨⟨escapeHtml e, rfl⟩, hst⟩
          | ok entries =>
            cases hff : findFile entries internalPath with
            | none =>
              have hrun : provideTextDocumentContent maxFileSize maxCompressionRatio
                  maxCacheSize readZip st uri =
                  (.ok ("Error: File \"" ++ escapeHtml internalPath ++
                    "\" not found in archive."), st1) := by
                unfold provideTextDocumentContent
                rw [hoc]
                simp [hdec, hzp, hsan, hrz, hff]
              rw [hrun]
              right; right; right; right; right; left
              exact ⟨⟨escapeHtml internalPath, rfl⟩, hst⟩
            | some file =>
              by_cases hsz : file.uncompressedSize > maxFileSize
              · have hrun : provideTextDocumentContent maxFileSize maxCompressionRatio
                    maxCacheSize readZip st uri =
                    (.ok (tooLargePreviewMsg file.uncompressedSize maxFileSize), st1) := by
                  unfold provideTextDocumentContent
                  rw [hoc]
                  simp [hdec, hzp, hsan, hrz, hff, hsz]
                rw [hrun]
                right; right; right; right; right; right; left
                exact ⟨⟨file.uncompressedSize, maxFileSize, rfl⟩, hst⟩
              · by_cases hbomb : isZipBomb file.compressedSize file.uncompressedSize
                    maxCompressionRatio = true
                · have hrun : provideTextDocumentContent maxFileSize maxCompressionRatio
                      maxCacheSize readZip st uri =
                      (.ok "Error: Suspicious compression ratio detected. File may be a zip bomb.",
                        st1) := by
                    unfold provideTextDocumentContent
                    rw [hoc]
                    simp [hdec, hzp, hsan, hrz, hff, hsz, hbomb]
                  rw [hrun]
                  right; right; right; right; right; right; right; left
                  exact ⟨rfl, hst⟩
                · cases hct : file.content with
                  | error e =>
                    have hrun : provideTextDocumentContent maxFileSize maxCompressionRatio
                        maxCacheSize readZip st uri =
                        (.ok ("Error reading file: " ++ escapeHtml e), st1) := by
                      unfold provideTextDocumentContent
                      rw [hoc]
                      simp [hdec, hzp, hsan, hrz, hff, hsz, hbomb, hct]
                    rw [hrun]
                    right; right; right; right; right; right; right; right
                    exact ⟨⟨escapeHtml e, rfl⟩, hst⟩
                  | ok content =>
                    have hrun : provideTextDocumentContent maxFileSize maxCompressionRatio
                        maxCacheSize readZip st uri =
                        (.ok content, addToCache maxCacheSize st1 uri.key content) := by
                      unfold provideTextDocumentContent
                      rw [hoc]
                      simp [hdec, hzp, hsan, hrz, hff, hsz, hbomb, hct]
                    rw [hrun]
                    right; right; left
                    exact ⟨zipPath, entries, file, content, rfl, hrz,
                      List.mem_of_find?_eq_some hff, by rw [hct], rfl, by rw [hst]⟩

theorem mapKeys_mapDelete {α : Type} (m : List (String × α)) (k : String) :
    mapKeys (mapDelete m k) = (mapKeys m).erase k := by
  induction m with
  | nil => rfl
  | cons kv rest ih =>
    obtain ⟨a, b⟩ := kv
    by_cases h : a = k
    · subst h
      simp [mapDelete, mapKeys, List.erase_cons]
    · simp [mapDelete, mapKeys, List.erase_cons, h, ih]
      exact ih

theorem mapKeys_mapSet_eq {α : Type} (m : List (String × α)) (k : String) (v : α) :
    mapKeys (mapSet m k v) =
      if k ∈ mapKeys m then mapKeys m else mapKeys m ++ [k] := by
  induction m with
  | nil => simp [mapSet, mapKeys]
  | cons kv rest ih =>
    obtain ⟨a, b⟩ := kv
    by_cases h : a = k
    · subst h
      simp [mapSet, mapKeys]
    · simp only [mapSet, if_neg h, mapKeys, List.map_cons] at ih ⊢
      rw [ih]
      by_cases h2 : k ∈ List.map Prod.fst rest
      · rw [if_pos h2, if_pos (List.mem_cons_of_mem a h2)]
      · rw [if_neg h2, if_neg (by simp [h2, Ne.symm h])]
        simp

theorem mapGet_mem_mapKeys {α : Type} {m : List (String × α)} {k : String} {v : α}
    (h : mapGet m k = some v) : k ∈ mapKeys m := by
  induction m with
  | nil => cases h
  | cons kv rest ih =>
    obtain ⟨a, b⟩ := kv
    by_cases h1 : a = k
    · subst h1
      exact List.mem_cons_self ..
    · rw [mapGet, if_neg h1] at h
      exact List.mem_cons_of_mem _ (ih h)

theorem evict_inv (max : ℕ) : ∀ (l : List String) (m : List (String × String)),
    l.Nodup → (∀ k ∈ l, k ≠ "") → (mapKeys m).Nodup → (∀ k ∈ l, k ∈ mapKeys m) →
    (evictWhileFull max l m).1.Nodup ∧
    (∀ k ∈ (evictWhileFull max l m).1, k ∈ l) ∧
    (mapKeys (evictWhileFull max l m).2).Nodup ∧
    (∀ k ∈ (evictWhileFull max l m).1, k ∈ mapKeys (evictWhileFull max l m).2) ∧
    (∀ k ∈ mapKeys (evictWhileFull max l m).2, k ∈ mapKeys m) ∧
    (∀ k ∈ l, k ∈ mapKeys (evictWhileFull max l m).2 → k ∈ (evictWhileFull max l m).1) := by
  intro l
  induction l with
  | nil =>
    intro m _ _ hmn _
    exact ⟨List.nodup_nil, fun k hk => hk, hmn, fun k hk => absurd hk (List.not_mem_nil k),
      fun k hk => hk, fun k hk => absurd hk (List.not_mem_nil k)⟩
  | cons k0 rest ih =>
    intro m hnd hne hmn hsub
    by_cases hge : (k0 :: rest).length ≥ max
    · have hk0 : k0 ≠ "" := hne k0 (List.mem_cons_self ..)
      have hk0m : k0 ∉ rest := (List.nodup_cons.mp hnd).1
      have hstep : evictWhileFull max (k0 :: rest) m =
          evictWhileFull max rest (mapDelete m k0) := by
        simp only [evictWhileFull]
        rw [if_pos hge, if_neg hk0]
      have hkeys' : mapKeys (mapDelete m k0) = (mapKeys m).erase k0 :=
        mapKeys_mapDelete m k0
      have hrnd : rest.Nodup := (List.nodup_cons.mp hnd).2
      have hrne : ∀ k ∈ rest, k ≠ "" := fun k hk => hne k (List.mem_cons_of_mem _ hk)
      have hmn' : (mapKeys (mapDelete m k0)).Nodup := by
        rw [hkeys']
        exact hmn.erase k0
      have hsub' : ∀ k ∈ rest, k ∈ mapKeys (mapDelete m k0) := by
        intro k hk
        rw [hkeys']
        have hkm : k ∈ mapKeys m := hsub k (List.mem_cons_of_mem _ hk)
        have hkne : k ≠ k0 := fun hh => hk0m (hh ▸ hk)
        exact (List.mem_erase_of_ne hkne).mpr hkm
      obtain ⟨A, B, C, D, E, F⟩ := ih (mapDelete m k0) hrnd hrne hmn' hsub'
      rw [hstep]
      refine ⟨A, fun k hk => List.mem_cons_of_mem _ (B k hk), C, D, ?_, ?_⟩
      · intro k hk
        have := E k hk
        rw [hkeys'] at this
        exact List.mem_of_mem_erase this
      · intro k hk hk2
        rcases List.mem_cons.mp hk with rfl | hk3
        · exfalso
          have := E k hk2
          rw [hkeys'] at this
          exact ((hmn.mem_erase_iff).mp this).1 rfl
        · exact F k hk3 hk2
    · have hlt : (k0 :: rest).length < max := Nat.lt_of_not_le hge
      rw [evictWhileFull_of_lt hlt]
      exact ⟨hnd, fun k hk => hk, hmn, hsub, fun k hk => hk, fun k hk _ => hk⟩

end ZipView
namespace ZipView

theorem mapDelete_of_not_mem {α : Type} {m : List (String × α)} {k : String}
    (h : k ∉ mapKeys m) : mapDelete m k = m := by
  induction m with
  | nil => rfl
  | cons kv rest ih =>
    obtain ⟨a, b⟩ := kv
    have ha : a ≠ k := fun hh => h (hh ▸ List.mem_cons_self ..)
    rw [mapDelete, if_neg ha, ih fun hc => h (List.mem_cons_of_mem _ hc)]

theorem addToCache_strongInv (max : ℕ) (st : CacheState) (key value : String)
    (h : StrongInv st) (hk : key ≠ "") : StrongInv (addToCache max st key value) := by
  obtain ⟨⟨hnd, hmn, hso, hsm⟩, hne⟩ := h
  obtain ⟨o1, hfo1, h1nd, h1mem, h1nokey, h1rev⟩ :
      ∃ o1, (if st.cacheOrder.contains key = true then st.cacheOrder.erase key
        else st.cacheOrder) = o1 ∧ o1.Nodup ∧ (∀ k ∈ o1, k ∈ st.cacheOrder) ∧
        key ∉ o1 ∧ (∀ k ∈ st.cacheOrder, k ≠ key → k ∈ o1) := by
    by_cases hmem : key ∈ st.cacheOrder
    · have hcont : st.cacheOrder.contains key = true := by simpa using hmem
      exact ⟨st.cacheOrder.erase key, by rw [if_pos hcont], hnd.erase key,
        fun k hkk => List.mem_of_mem_erase hkk,
        fun hc => ((hnd.mem_erase_iff).mp hc).1 rfl,
        fun k hkk hkne => (List.mem_erase_of_ne hkne).mpr hkk⟩
    · have hcont : ¬ st.cacheOrder.contains key = true := by simpa using hmem
      exact ⟨st.cacheOrder, by rw [if_neg hcont], hnd, fun k hkk => hkk, hmem,
        fun k hkk _ => hkk⟩
  have h1sub : ∀ k ∈ o1, k ∈ mapKeys st.contentCache := fun k hkk => hso k (h1mem k hkk)
  have h1ne : ∀ k ∈ o1, k ≠ "" := fun k hkk hh => hne (hh ▸ h1mem k hkk)
  obtain ⟨A, B, C, D, E, F⟩ := evict_inv max o1 st.contentCache h1nd h1ne hmn h1sub
  have hknp1 : key ∉ (evictWhileFull max o1 st.contentCache).1 :=
    fun hc => h1nokey (B key hc)
  have hres : addToCache max st key value =
      ⟨mapSet (evictWhileFull max o1 st.contentCache).2 key value,
        (evictWhileFull max o1 st.contentCache).1 ++ [key]⟩ := by
    simp only [addToCache]
    rw [hfo1]
  rw [hres]
  have hkeq := mapKeys_mapSet_eq (evictWhileFull max o1 st.contentCache).2 key value
  refine ⟨⟨?_, ?_, ?_, ?_⟩, ?_⟩
  · exact A.append (List.nodup_singleton key)
      (fun a ha hb => hknp1 (List.mem_singleton.mp hb ▸ ha))
  · rw [hkeq]
    split
    · exact C
    case isFalse h2 =>
      exact C.append (List.nodup_singleton key)
        (fun a ha hb => h2 (List.mem_singleton.mp hb ▸ ha))
  · intro k hkk
    rw [hkeq]
    rcases List.mem_append.mp hkk with hk1 | hk1
    · have hk2 := D k hk1
      split
      · exact hk2
      · exact List.mem_append.mpr (Or.inl hk2)
    · have hkey : k = key := List.mem_singleton.mp hk1
      subst hkey
      split
      case isTrue h2 => exact h2
      case isFalse h2 => exact List.mem_append.mpr (Or.inr (List.mem_singleton_self k))
  · intro k hkk
    rw [hkeq] at hkk
    have hcase : k ∈ mapKeys (evictWhileFull max o1 st.contentCache).2 ∨ k = key := by
      split at hkk
      · exact Or.inl hkk
      · rcases List.mem_append.mp hkk with hk1 | hk1
        · exact Or.inl hk1
        · exact Or.inr (List.mem_singleton.mp hk1)
    rcases hcase with hk2 | rfl
    · by_cases hkk2 : k = key
      · subst hkk2
        exact List.mem_append.mpr (Or.inr (List.mem_singleton_self k))
      · have hkm : k ∈ mapKeys st.contentCache := E k hk2
        have hko : k ∈ st.cacheOrder := hsm k hkm
        exact List.mem_append.mpr (Or.inl (F k (h1rev k hko hkk2) hk2))
    · exact List.mem_append.mpr (Or.inr (List.mem_singleton_self k))
  · intro hc
    rcases List.mem_append.mp hc with hc1 | hc1
    · exact h1ne "" (B "" hc1) rfl
    · exact hk (List.mem_singleton.mp hc1).symm

theorem getFromCache_strongInv (st : CacheState) (k2 : String)
    (h : StrongInv st) : StrongInv (getFromCache st k2).2 := by
  obtain ⟨⟨hnd, hmn, hso, hsm⟩, hne⟩ := h
  cases hm : mapGet st.contentCache k2 with
  | none =>
    rw [show (getFromCache st k2).2 = st by unfold getFromCache; rw [hm]]
    exact ⟨⟨hnd, hmn, hso, hsm⟩, hne⟩
  | some v =>
    have hk2 : k2 ∈ mapKeys st.contentCache := mapGet_mem_mapKeys hm
    have hk2o : k2 ∈ st.cacheOrder := hsm _ hk2
    have hcont : st.cacheOrder.contains k2 = true := by simpa using hk2o
    have hres : (getFromCache st k2).2 =
        { st with cacheOrder := st.cacheOrder.erase k2 ++ [k2] } := by
      unfold getFromCache
      rw [hm]
      simp only [if_pos hcont]
    rw [hres]
    have hk2ne : k2 ≠ "" := fun hh => hne (hh ▸ hk2o)
    refine ⟨⟨?_, hmn, ?_, ?_⟩, ?_⟩
    · exact (hnd.erase k2).append (List.nodup_singleton k2)
        (fun a ha hb => ((hnd.mem_erase_iff).mp (List.mem_singleton.mp hb ▸ ha)).1
          (List.mem_singleton.mp hb))
    · intro k hkk
      rcases List.mem_append.mp hkk with hk1 | hk1
      · exact hso k (List.mem_of_mem_erase hk1)
      · rw [List.mem_singleton.mp hk1]
        exact hk2
    · intro k hkk
      by_cases hkk2 : k = k2
      · subst hkk2
        exact List.mem_append.mpr (Or.inr (List.mem_singleton_self k))
      · exact List.mem_append.mpr
          (Or.inl ((List.mem_erase_of_ne hkk2).mpr (hsm k hkk)))
    · intro hc
      rcases List.mem_append.mp hc with hc1 | hc1
      · exact hne (List.mem_of_mem_erase hc1)
      · exact hk2ne (List.mem_singleton.mp hc1).symm

theorem invalidate_strongInv (st : CacheState) (k3 : String)
    (h : StrongInv st) : StrongInv (invalidate st k3) := by
  obtain ⟨⟨hnd, hmn, hso, hsm⟩, hne⟩ := h
  have hkeq : mapKeys (mapDelete st.contentCache k3) = (mapKeys st.contentCache).erase k3 :=
    mapKeys_mapDelete _ _
  by_cases hmem : k3 ∈ st.cacheOrder
  · have hcont : st.cacheOrder.contains k3 = true := by simpa using hmem
    have hres : invalidate st k3 =
        ⟨mapDelete st.contentCache k3, st.cacheOrder.erase k3⟩ := by
      unfold invalidate
      rw [if_pos hcont]
    rw [hres]
    refine ⟨⟨hnd.erase k3, ?_, ?_, ?_⟩, ?_⟩
    · rw [hkeq]; exact hmn.erase k3
    · intro k hkk
      rw [hkeq]
      have := (hnd.mem_erase_iff).mp hkk
      exact (List.mem_erase_of_ne this.1).mpr (hso k this.2)
    · intro k hkk
      rw [hkeq] at hkk
      have := (hmn.mem_erase_iff).mp hkk
      exact (List.mem_erase_of_ne this.1).mpr (hsm k this.2)
    · intro hc
      exact hne (List.mem_of_mem_erase hc)
  · have hcont : ¬ st.cacheOrder.contains k3 = true := by simpa using hmem
    have hk3m : k3 ∉ mapKeys st.contentCache := fun hc => hmem (hsm k3 hc)
    have hres : invalidate st k3 = ⟨mapDelete st.contentCache k3, st.cacheOrder⟩ := by
      unfold invalidate
      rw [if_neg hcont]
    rw [hres, mapDelete_of_not_mem hk3m]
    exact ⟨⟨hnd, hmn, hso, hsm⟩, hne⟩

/- Claim theorems. -/

/-- Claim C2: every raw path containing a dot-dot segment anywhere,
    after backslash normalization and splitting on slashes, is rejected
    whole by sanitizeZipPath. -/
theorem claim2_sanitize_rejects_dotdot (p : String)
    (h : ['.', '.'] ∈ splitOnSlash (normalizeSeps p.data)) :
    sanitizeZipPath p = none := by
  unfold sanitizeZipPath
  split_ifs with hp
  · rfl
  · rw [filterSegs_of_dotdot (dotdot_mem_strip h)]

/-- Witness for claim C2 at the raw path ../secret.txt. -/
theorem claim2_sanitize_rejects_dotdot_witness :
    ['.', '.'] ∈ splitOnSlash (normalizeSeps "../secret.txt".data) ∧
      sanitizeZipPath "../secret.txt" = none :=
  ⟨by decide, claim2_sanitize_rejects_dotdot "../secret.txt" (by decide)⟩

/-- Claim C8: sanitization is idempotent; whenever sanitizeZipPath
    succeeds, re-sanitizing the result returns it unchanged. -/
theorem claim8_sanitize_idempotent (p r : String) (h : sanitizeZipPath p = some r) :
    sanitizeZipPath r = some r := by
  unfold sanitizeZipPath at h
  split_ifs at h with hp
  revert h
  cases hf : filterSegs (splitOnSlash (stripLeadingSlashes (normalizeSeps p.data))) with
  | none => intro h; cases h
  | some segs =>
    cases segs with
    | nil => intro h; cases h
    | cons s ss =>
      intro h
      injection h with h
      have hsound := filterSegs_sound hf
      have hnoslash : ∀ t ∈ s :: ss, '/' ∉ t := fun t ht =>
        no_slash_of_mem_splitOnSlash (hsound t ht).1
      have hnobs : ∀ t ∈ s :: ss, '\\' ∉ t := by
        intro t ht hbs
        exact backslash_not_mem_normalizeSeps p.data
          (mem_of_mem_stripLeadingSlashes
            (mem_of_mem_splitOnSlash (hsound t ht).1 hbs))
      have hs_ne : s ≠ [] := (hsound s (List.mem_cons_self ..)).2.1
      obtain ⟨t0, hd⟩ := joinSegs_cons_append s ss
      obtain ⟨c0, s', rfl⟩ := List.exists_cons_of_ne_nil hs_ne
      have hc0 : c0 ≠ '/' := fun hh =>
        hnoslash _ (List.mem_cons_self ..) (hh ▸ List.mem_cons_self ..)
      have hrd : r.data = joinSegs ((c0 :: s') :: ss) := by rw [← h]
      have hdne : r ≠ "" := by
        intro h0
        have : r.data = [] := by rw [h0]
        rw [hrd, hd] at this
        cases this
      unfold sanitizeZipPath
      rw [if_neg hdne]
      have h1 : normalizeSeps r.data = r.data := by
        apply normalizeSeps_eq_self
        intro hbs
        rw [hrd] at hbs
        rcases mem_joinSegs hbs with h2 | ⟨t, ht, hc2⟩
        · cases h2
        · exact hnobs t ht hc2
      have h2 : stripLeadingSlashes r.data = r.data := by
        rw [hrd, hd]
        simp [stripLeadingSlashes, List.dropWhile_cons, hc0]
      have h3 : splitOnSlash r.data = (c0 :: s') :: ss := by
        rw [hrd]
        exact splitOnSlash_joinSegs (by simp) hnoslash
      have h4 : filterSegs ((c0 :: s') :: ss) = some ((c0 :: s') :: ss) :=
        filterSegs_fixed fun t ht => (hsound t ht).2
      rw [h1, h2, h3, h4]
      exact congrArg some h

/-- Witness for claim C8 at a path with mixed separators. -/
theorem claim8_sanitize_idempotent_witness :
    sanitizeZipPath "a\\b/c" = some "a/b/c" ∧ sanitizeZipPath "a/b/c" = some "a/b/c" :=
  ⟨by decide, claim8_sanitize_idempotent "a\\b/c" "a/b/c" (by decide)⟩

/-- Claim C3: the compression-ratio gate permits an entry exactly when
    the sizes are not zero-compressed-positive-output and, for positive
    compressed size, the exact ratio does not exceed the maximum; with
    the four concrete size examples at maximum ratio 100. -/
theorem claim3_isZipBomb_spec :
    (∀ (c u : ℕ) (r : ℚ), isZipBomb c u r = false ↔
      ¬(c = 0 ∧ 0 < u) ∧ (0 < c → (u : ℚ) / (c : ℚ) ≤ r)) ∧
    isZipBomb 0 0 100 = false ∧ isZipBomb 0 100 100 = true ∧
    isZipBomb 10 2000 100 = true ∧ isZipBomb 10 500 100 = false := by
  refine ⟨fun c u r => ?_, by norm_num [isZipBomb], by norm_num [isZipBomb],
    by norm_num [isZipBomb], by norm_num [isZipBomb]⟩
  unfold isZipBomb
  by_cases hc : c = 0
  · subst hc
    simp [Nat.pos_iff_ne_zero]
  · have hcpos : 0 < c := Nat.pos_of_ne_zero hc
    simp [hc, hcpos, not_lt]

/-- Counterexample to claim C5: listing the children of base path "a"
    does not return the file before the directory; the sort places the
    synthesized directory first. -/
theorem claim5_children_order_cex :
    getEntriesAtPath exampleEntries "a".data ≠
      [⟨"b.txt".data, .file, "a/b.txt".data⟩, ⟨"c".data, .folder, "a/c".data⟩] := by
  decide

/-- Claim C5 as amended: on the example entries, the root listing is the
    directory a followed by the file e.txt, and the listing of base path
    "a" is the synthesized directory c followed by the file b.txt, each
    listing sorted directories first. -/
theorem claim5_listing :
    getEntriesAtPath exampleEntries [] =
      [⟨"a".data, .folder, "a".data⟩, ⟨"e.txt".data, .file, "e.txt".data⟩] ∧
    getEntriesAtPath exampleEntries "a".data =
      [⟨"c".data, .folder, "a/c".data⟩, ⟨"b.txt".data, .file, "a/b.txt".data⟩] := by
  constructor <;> decide

/-- Claim C1: extracting an entry whose declared uncompressed size
    exceeds the configured maximum yields the too-large error, never the
    decoded bytes, before the ratio check (the conclusion holds for
    every ratio and every payload) and distinct from the
    suspicious-ratio message. -/
theorem claim1_extract_tooLarge (readZip : String → Except String (List ZipFileEntry))
    (zipPath rawPath : String) (maxFileSize : ℕ) (maxCompressionRatio : ℚ)
    (entries : List ZipFileEntry) (sp : String) (f : ZipFileEntry)
    (hs : sanitizeZipPath rawPath = some sp)
    (hr : readZip zipPath = .ok entries)
    (hf : findFile entries sp = some f)
    (hu : f.uncompressedSize > maxFileSize) :
    extractFileFromZip readZip zipPath rawPath maxFileSize maxCompressionRatio =
      .error (tooLargeExtractMsg f.uncompressedSize maxFileSize) ∧
    (∀ b, extractFileFromZip readZip zipPath rawPath maxFileSize maxCompressionRatio ≠
      .ok b) ∧
    tooLargeExtractMsg f.uncompressedSize maxFileSize ≠ suspiciousMsg ∧
    (∀ u2 m2, tooLargePreviewMsg u2 m2 ≠
      "Error: Suspicious compression ratio detected. File may be a zip bomb.") := by
  have hmain : extractFileFromZip readZip zipPath rawPath maxFileSize maxCompressionRatio =
      .error (tooLargeExtractMsg f.uncompressedSize maxFileSize) := by
    simp only [extractFileFromZip, hs, hr, hf]
    rw [if_pos hu]
  refine ⟨hmain, fun b hb => ?_, tooLargeExtractMsg_ne _ _, tooLargePreviewMsg_ne⟩
  rw [hmain] at hb
  cases hb

/-- Witness for claim C1: a 2 MB entry against a 1 MB limit. -/
theorem claim1_extract_tooLarge_witness :
    (sanitizeZipPath "f.txt" = some "f.txt" ∧
      sampleBigReadZip "a.zip" = .ok [sampleBigEntry] ∧
      findFile [sampleBigEntry] "f.txt" = some sampleBigEntry ∧
      sampleBigEntry.uncompressedSize > 1048576) ∧
    (extractFileFromZip sampleBigReadZip "a.zip" "f.txt" 1048576 100 =
      .error (tooLargeExtractMsg sampleBigEntry.uncompressedSize 1048576) ∧
    (∀ b, extractFileFromZip sampleBigReadZip "a.zip" "f.txt" 1048576 100 ≠ .ok b) ∧
    tooLargeExtractMsg sampleBigEntry.uncompressedSize 1048576 ≠ suspiciousMsg ∧
    (∀ u2 m2, tooLargePreviewMsg u2 m2 ≠
      "Error: Suspicious compression ratio detected. File may be a zip bomb.")) :=
  ⟨⟨by decide, rfl, rfl, by decide⟩,
    claim1_extract_tooLarge sampleBigReadZip "a.zip" "f.txt" 1048576 100
      [sampleBigEntry] "f.txt" sampleBigEntry (by decide) rfl rfl (by decide)⟩

/-- Counterexample to claim C4: binary extraction does not reuse any
    cached parse; with the same archive path and no invalidation, two
    consecutive extractions observe the current file content, so a
    change on disk changes the result. -/
theorem claim4_extraction_not_cached_cex :
    extractFileFromZip (fun _ => .ok [⟨"f.txt", 0, 0, .ok "v1"⟩])
      "a.zip" "f.txt" 1000 100 = .ok "v1" ∧
    extractFileFromZip (fun _ => .ok [⟨"f.txt", 0, 0, .ok "v2"⟩])
      "a.zip" "f.txt" 1000 100 = .ok "v2" ∧
    ("v1" : String) ≠ "v2" :=
  ⟨rfl, rfl, by decide⟩

/-- Claim C4 as amended: only the tree-explorer archive cache loads on
    miss and returns the cached parse on hit; after one load, a second
    request for the same path returns the stored parse whatever the file
    system now holds.  Content preview and binary extraction re-read the
    archive on every uncached request. -/
theorem claim4_loadZip_cache (readZip : String → Except String (List ZEntry))
    (cache : List (String × List ZEntry)) (fsPath : String) (zip : List ZEntry)
    (h1 : mapGet cache fsPath = none) (h2 : readZip fsPath = .ok zip) :
    loadZip readZip cache fsPath = (some zip, mapSet cache fsPath zip) ∧
    ∀ readZip2, loadZip readZip2 (mapSet cache fsPath zip) fsPath =
      (some zip, mapSet cache fsPath zip) := by
  constructor
  · simp only [loadZip, h1, h2]
  · intro rz2
    simp [loadZip, mapGet_mapSet]

/-- Witness for claim C4 at an empty cache and a one-entry archive. -/
theorem claim4_loadZip_cache_witness :
    (mapGet ([] : List (String × List ZEntry)) "a.zip" = none ∧
      sampleReadZip "a.zip" = .ok sampleZip) ∧
    (loadZip sampleReadZip [] "a.zip" = (some sampleZip, mapSet [] "a.zip" sampleZip) ∧
    ∀ readZip2, loadZip readZip2 (mapSet [] "a.zip" sampleZip) "a.zip" =
      (some sampleZip, mapSet [] "a.zip" sampleZip)) :=
  ⟨⟨rfl, rfl⟩, claim4_loadZip_cache sampleReadZip [] "a.zip" sampleZip rfl rfl⟩

/-- Claim C6: the content cache is a capacity-bounded LRU.  The concrete
    capacity-2 scenario: puts of A, B, C evict A; a read of B followed
    by a put of D evicts C and keeps B.  In general, a put of a fresh
    nonempty key into a full cache evicts exactly the head of the access
    order, the least recently used key. -/
theorem claim6_lru_eviction (max : ℕ) (st : CacheState) (key value k0 : String)
    (hlen : st.cacheOrder.length = max)
    (hnm : key ∉ st.cacheOrder) (hh : st.cacheOrder.head? = some k0) (hk0 : k0 ≠ "") :
    (mapGet lruStep3.contentCache "A" = none ∧
      mapGet lruStep3.contentCache "B" = some "b" ∧
      mapGet lruStep3.contentCache "C" = some "c" ∧
      (getFromCache lruStep3 "B").1 = some "b" ∧
      mapGet lruStep5.contentCache "C" = none ∧
      mapGet lruStep5.contentCache "B" = some "b" ∧
      mapGet lruStep5.contentCache "D" = some "d") ∧
    (addToCache max st key value).cacheOrder = st.cacheOrder.tail ++ [key] ∧
    (addToCache max st key value).contentCache =
      mapSet (mapDelete st.contentCache k0) key value := by
  refine ⟨by decide, ?_⟩
  obtain ⟨tail, horder⟩ : ∃ t, st.cacheOrder = k0 :: t := by
    cases hco : st.cacheOrder with
    | nil => rw [hco] at hh; cases hh
    | cons a t =>
      rw [hco] at hh
      injection hh with hh
      exact ⟨t, by rw [hh]⟩
  rw [horder] at hnm hlen
  have hcont : ¬ (k0 :: tail).contains key = true := by simpa using hnm
  have hlen' : tail.length + 1 = max := by simpa using hlen
  have hlt : tail.length < max := by omega
  simp only [addToCache, horder, if_neg hcont]
  have hstep : evictWhileFull max (k0 :: tail) st.contentCache =
      evictWhileFull max tail (mapDelete st.contentCache k0) := by
    simp only [evictWhileFull, List.length_cons]
    rw [if_pos (by omega), if_neg hk0]
  rw [hstep, evictWhileFull_of_lt hlt]
  exact ⟨rfl, rfl⟩

/-- Witness for claim C6: a put of D into the full cache holding B and
    C evicts B, the least recently used key. -/
theorem claim6_lru_eviction_witness :
    (lruFullState.cacheOrder.length = 2 ∧ "D" ∉ lruFullState.cacheOrder ∧
      lruFullState.cacheOrder.head? = some "B" ∧ ("B" : String) ≠ "") ∧
    ((mapGet lruStep3.contentCache "A" = none ∧
      mapGet lruStep3.contentCache "B" = some "b" ∧
      mapGet lruStep3.contentCache "C" = some "c" ∧
      (getFromCache lruStep3 "B").1 = some "b" ∧
      mapGet lruStep5.contentCache "C" = none ∧
      mapGet lruStep5.contentCache "B" = some "b" ∧
      mapGet lruStep5.contentCache "D" = some "d") ∧
    (addToCache 2 lruFullState "D" "d").cacheOrder =
      lruFullState.cacheOrder.tail ++ ["D"] ∧
    (addToCache 2 lruFullState "D" "d").contentCache =
      mapSet (mapDelete lruFullState.contentCache "B") "D" "d") :=
  ⟨⟨by decide, by decide, by decide, by decide⟩,
    claim6_lru_eviction 2 lruFullState "D" "d" "B"
      (by decide) (by decide) (by decide) (by decide)⟩

/-- Counterexample to claim C7: the provider can reject past the
    boundary rather than return a string.  The decodeURIComponent call
    at line 176 sits outside the try/catch; for a URI whose zipPath
    query value is the malformed percent-encoding percent-sign-alone,
    the returned promise rejects with a URIError and no string of any
    kind is produced. -/
theorem claim7_uri_decode_throws_cex :
    (provideTextDocumentContent 1048576 100 50 (fun _ => Except.ok [])
      initialCacheState ⟨"/f.txt", "%", "k"⟩).1 = Except.error uriErrorMsg ∧
    ∀ s, (provideTextDocumentContent 1048576 100 50 (fun _ => Except.ok [])
      initialCacheState ⟨"/f.txt", "%", "k"⟩).1 ≠ Except.ok s := by
  constructor
  · rfl
  · intro s h
    have h0 : (provideTextDocumentContent 1048576 100 50 (fun _ => Except.ok [])
        initialCacheState ⟨"/f.txt", "%", "k"⟩).1 = Except.error uriErrorMsg := rfl
    rw [h0] at h
    cases h

/-- Claim C7 as amended: resolving a content-preview virtual document
    returns a string - a cached value, the decoded text of the found
    entry, or one of the six enumerated error messages - except when the
    request misses the cache and the zipPath query value is a malformed
    percent-encoding, in which case the unguarded decodeURIComponent at
    line 176 throws and the promise rejects with a URIError. -/
theorem claim7_preview_resolves_or_rejects (maxFileSize maxCacheSize : ℕ)
    (maxCompressionRatio : ℚ) (readZip : String → Except String (List ZipFileEntry))
    (st : CacheState) (uri : ZipUri) :
    (∃ r, (provideTextDocumentContent maxFileSize maxCompressionRatio maxCacheSize readZip
      st uri).1 = .ok r ∧ mapGet st.contentCache uri.key = some r) ∨
    (∃ zp entries f r, decodeURIComponent uri.zipPathParam = some zp ∧
      readZip zp = .ok entries ∧ f ∈ entries ∧ f.content = .ok r ∧
      (provideTextDocumentContent maxFileSize maxCompressionRatio maxCacheSize readZip st
        uri).1 = .ok r) ∨
    (provideTextDocumentContent maxFileSize maxCompressionRatio maxCacheSize readZip st
      uri).1 = .ok "Error: Missing zip file path in URI." ∨
    (provideTextDocumentContent maxFileSize maxCompressionRatio maxCacheSize readZip st
      uri).1 = .ok "Error: Invalid file path." ∨
    (∃ p, (provideTextDocumentContent maxFileSize maxCompressionRatio maxCacheSize readZip
      st uri).1 = .ok ("Error: File \"" ++ p ++ "\" not found in archive.")) ∨
    (∃ u m, (provideTextDocumentContent maxFileSize maxCompressionRatio maxCacheSize
      readZip st uri).1 = .ok (tooLargePreviewMsg u m)) ∨
    (provideTextDocumentContent maxFileSize maxCompressionRatio maxCacheSize readZip st
      uri).1 =
      .ok "Error: Suspicious compression ratio detected. File may be a zip bomb." ∨
    (∃ m, (provideTextDocumentContent maxFileSize maxCompressionRatio maxCacheSize readZip
      st uri).1 = .ok ("Error reading file: " ++ m)) ∨
    ((provideTextDocumentContent maxFileSize maxCompressionRatio maxCacheSize readZip st
      uri).1 = .error uriErrorMsg ∧ decodeURIComponent uri.zipPathParam = none) := by
  rcases provide_outcomes maxFileSize maxCacheSize maxCompressionRatio readZip st uri _
      rfl with
    ⟨r, h1, h2, _⟩ | ⟨h1, h2, _⟩ | ⟨zp, e, f, r, h1, h2, h3, h4, h5, _⟩ | ⟨h1, _⟩ |
    ⟨h1, _⟩ | ⟨h1, _⟩ | ⟨h1, _⟩ | ⟨h1, _⟩ | ⟨h1, _⟩
  · exact Or.inl ⟨r, h1, h2⟩
  · exact Or.inr (Or.inr (Or.inr (Or.inr (Or.inr (Or.inr (Or.inr (Or.inr ⟨h1, h2⟩)))))))
  · exact Or.inr (Or.inl ⟨zp, e, f, r, h1, h2, h3, h4, h5⟩)
  · exact Or.inr (Or.inr (Or.inl h1))
  · exact Or.inr (Or.inr (Or.inr (Or.inl h1)))
  · exact Or.inr (Or.inr (Or.inr (Or.inr (Or.inl h1))))
  · exact Or.inr (Or.inr (Or.inr (Or.inr (Or.inr (Or.inl h1)))))
  · exact Or.inr (Or.inr (Or.inr (Or.inr (Or.inr (Or.inr (Or.inl h1))))))
  · exact Or.inr (Or.inr (Or.inr (Or.inr (Or.inr (Or.inr (Or.inr (Or.inl h1)))))))

/-- Claim C9: the content cache is written only after a successful text
    decode.  Every run of the provider either leaves the state entirely
    unchanged (all error outcomes, the URIError rejection included), or
    is a cache hit (the map unchanged, only the access order promoted),
    or ends in a successful decode whose result is stored through
    addToCache. -/
theorem claim9_errors_not_cached (maxFileSize maxCacheSize : ℕ)
    (maxCompressionRatio : ℚ) (readZip : String → Except String (List ZipFileEntry))
    (st : CacheState) (uri : ZipUri) :
    (provideTextDocumentContent maxFileSize maxCompressionRatio maxCacheSize readZip st
      uri).2 = st ∨
    (∃ r, (provideTextDocumentContent maxFileSize maxCompressionRatio maxCacheSize readZip
      st uri).1 = .ok r ∧ mapGet st.contentCache uri.key = some r ∧
      ((provideTextDocumentContent maxFileSize maxCompressionRatio maxCacheSize readZip st
        uri).2).contentCache = st.contentCache) ∨
    (∃ zp entries f r, decodeURIComponent uri.zipPathParam = some zp ∧
      readZip zp = .ok entries ∧ f ∈ entries ∧ f.content = .ok r ∧
      (provideTextDocumentContent maxFileSize maxCompressionRatio maxCacheSize readZip st
        uri).1 = .ok r ∧
      (provideTextDocumentContent maxFileSize maxCompressionRatio maxCacheSize readZip st
        uri).2 = addToCache maxCacheSize st uri.key r) := by
  rcases provide_outcomes maxFileSize maxCacheSize maxCompressionRatio readZip st uri _
      rfl with
    ⟨r, h1, h2, h3⟩ | ⟨_, _, h3⟩ | ⟨zp, e, f, r, h1, h2, h3, h4, h5, h6⟩ | ⟨_, h2⟩ |
    ⟨_, h2⟩ | ⟨_, h2⟩ | ⟨_, h2⟩ | ⟨_, h2⟩ | ⟨_, h2⟩
  · exact Or.inr (Or.inl ⟨r, h1, h2, h3⟩)
  · exact Or.inl h3
  · exact Or.inr (Or.inr ⟨zp, e, f, r, h1, h2, h3, h4, h5, h6⟩)
  · exact Or.inl h2
  · exact Or.inl h2
  · exact Or.inl h2
  · exact Or.inl h2
  · exact Or.inl h2
  · exact Or.inl h2

/-- Counterexample to claim C10: with the empty string as a key (a JS
    falsy value), the eviction loop removes it from the access order but
    skips the map delete, breaking the key-set equality; the invariant
    holds after the first put and fails after the second. -/
theorem claim10_empty_key_cex :
    CacheInv (addToCache 1 initialCacheState "" "v") ∧
    ¬ CacheInv (addToCache 1 (addToCache 1 initialCacheState "" "v") "A" "w") := by
  decide

/-- Claim C10 as amended: provided no cache key is the empty string, as
    holds for every key produced by uri.toString(), the consistency
    invariant holds initially and is preserved by addToCache,
    getFromCache, invalidate and dispose. -/
theorem claim10_invariant_preserved (max : ℕ) (st : CacheState) (key value k2 k3 : String)
    (h : StrongInv st) (hkey : key ≠ "") :
    StrongInv initialCacheState ∧ StrongInv (addToCache max st key value) ∧
    StrongInv (getFromCache st k2).2 ∧ StrongInv (invalidate st k3) ∧
    StrongInv disposeState :=
  ⟨by decide, addToCache_strongInv max st key value h hkey,
    getFromCache_strongInv st k2 h, invalidate_strongInv st k3 h, by decide⟩

/-- Witness for claim C10 at the full two-entry cache state. -/
theorem claim10_invariant_preserved_witness :
    (StrongInv lruFullState ∧ ("D" : String) ≠ "") ∧
    (StrongInv initialCacheState ∧ StrongInv (addToCache 2 lruFullState "D" "d") ∧
      StrongInv (getFromCache lruFullState "B").2 ∧
      StrongInv (invalidate lruFullState "C") ∧ StrongInv disposeState) :=
  ⟨⟨by decide, by decide⟩,
    claim10_invariant_preserved 2 lruFullState "D" "d" "B" "C" (by decide) (by decide)⟩

end ZipView
